import Mathlib

/-!
# Verification of the PIconnect condensation / extraction engine

Shallow embedding of the parts of `nielsvth/PIconnect` that the claims
C1..C10 are about:

* `EventHierarchy.condense` (src/src/PIconnect/PIAF.py, lines 1648-1719),
  with its column-renaming rule, per-level empty-column dropping, path-key
  splitting, outer merge, duplicate removal and Endtime NaT filling;
* the legacy Endtime fill of the top-level copy (src/PIconnect/PIAF.py,
  lines 1441-1457) which additionally fills level 0 with "now";
* the `col=True` tag-column branches of
  `CondensedEventHierarchy.interpol_discrete_extract` and
  `CondensedEventHierarchy.summary_extract` (PIAF.py);
* `PIServer.find_tags` and `convert_to_TagList` (src/src/PIconnect/PI.py);
* `timestamp_to_index` (src/src/PIconnect/time.py);
* `chunk`, `source_extract` and `threading` (src/PIconnect/thread.py).

DataFrames are modelled as a list of column names together with rows that
are association lists from column names to optional values (`none` models
`NaN`/`NaT`).  Pandas column names can be Python ints (the auxiliary merge
key columns) or strings, hence `ColName` below.
-/

namespace PIconnect

/-- A pandas column label: the condense code uses both integer-labelled
auxiliary key columns (`cols = [x for x in range(level + 1)]`) and ordinary
string labels. -/
inductive ColName where
  | str (s : String)
  | idx (n : Nat)
deriving DecidableEq, Repr

/-- Cell payloads appearing in the modelled frames: strings (names, paths,
templates, placeholder values) and naturals (event handles, levels, model
timestamps). -/
inductive Val where
  | str (s : String)
  | nat (n : Nat)
deriving DecidableEq, Repr

/-- A cell; `none` models a pandas missing value (`NaN`/`NaT`). -/
abbrev Cell := Option Val

/-- A row: an association list from column names to cells, aligned with the
frame's column list. -/
abbrev Row := List (ColName × Cell)

/-- A pandas DataFrame: ordered column labels plus rows. -/
structure DF where
  cols : List ColName
  rows : List Row
deriving DecidableEq, Repr

/-- `"[" in col_name`: the bracket test of the condense renaming rule. -/
def hasBracket (s : String) : Bool := s.data.contains '['

/-- Decimal digits of a natural number, fuel-structured so that it reduces
in the kernel (model of Python `str(int(level))`). -/
def natChars (fuel n : Nat) : List Char :=
  match fuel with
  | 0 => []
  | fuel + 1 => if n < 10 then [Nat.digitChar n]
                else natChars fuel (n / 10) ++ [Nat.digitChar (n % 10)]

/-- Model of Python `str(int(level))`. -/
def natStr (n : Nat) : String := ⟨natChars (n + 1) n⟩

/-- The condense column-renaming rule (PIAF.py, condense):
`col_name + " [" + str(int(level)) + "]" if not ((type(col_name) == int) or
("[" in col_name)) else col_name`. -/
def renameCol (level : Nat) (c : ColName) : ColName :=
  match c with
  | .idx n => .idx n
  | .str s => if hasBracket s then .str s
              else .str (s ++ " [" ++ natStr level ++ "]")

theorem String.data_append_eq (a b : String) : (a ++ b).data = a.data ++ b.data := by
  cases a; cases b; rfl

theorem hasBracket_append_suffix (s : String) (level : Nat) :
    hasBracket (s ++ " [" ++ natStr level ++ "]") = true := by
  simp only [hasBracket, String.data_append_eq]
  rw [List.contains_eq_any_beq]
  simp only [List.any_eq_true, List.mem_append]
  exact ⟨'[', Or.inl (Or.inl (Or.inr (by simp))), by simp⟩

/-- C6. The condense column-renaming rule leaves integer key columns and
names that already contain a bracket unchanged, and re-applying it to an
already-renamed column is a no-op. -/
theorem condense_rename_idempotent :
    (∀ (n level : Nat), renameCol level (.idx n) = .idx n) ∧
    (∀ (s : String) (level : Nat), hasBracket s = true →
      renameCol level (.str s) = .str s) ∧
    (∀ (c : ColName) (level level' : Nat),
      renameCol level' (renameCol level c) = renameCol level c) := by
  refine ⟨fun n level => rfl, fun s level h => by simp [renameCol, h], ?_⟩
  intro c level level'
  match c with
  | .idx n => rfl
  | .str s =>
    by_cases h : hasBracket s = true
    · simp [renameCol, h]
    · simp only [renameCol, h, if_false, Bool.false_eq_true]
      simp [hasBracket_append_suffix]

/-- Witness for C6 at concrete inputs. -/
theorem condense_rename_idempotent_witness :
    renameCol 2 (.idx 0) = .idx 0 ∧
    (hasBracket "Name [1]" = true ∧ renameCol 2 (.str "Name [1]") = .str "Name [1]") ∧
    renameCol 2 (renameCol 1 (.str "Name")) = renameCol 1 (.str "Name") := by
  refine ⟨condense_rename_idempotent.1 0 2, ⟨by decide, ?_⟩, condense_rename_idempotent.2.2 (.str "Name") 1 2⟩
  exact condense_rename_idempotent.2.1 "Name [1]" 2 (by decide)

/-- Look up the cell of a row at a column; an absent column reads as a
missing value (matching how pandas pads unmatched merge rows with `NaN`). -/
def Row.cell (r : Row) (c : ColName) : Cell :=
  match r.find? (fun p => p.1 == c) with
  | some p => p.2
  | none => none

/-- Assign a cell at a column (pandas column assignment: replace the column
if present, append it otherwise). -/
def Row.set (r : Row) (c : ColName) (v : Cell) : Row :=
  if r.any (fun p => p.1 == c) then
    r.map (fun p => if p.1 == c then (c, v) else p)
  else r ++ [(c, v)]

/-- Split a character list at every occurrence of `sep`, keeping empty
pieces — the semantics of Python `str.split(sep)`.  Structural so that it
reduces in the kernel (unlike `String.splitOn`). -/
def splitCharsAux (sep : Char) (cur : List Char) : List Char → List (List Char)
  | [] => [cur.reverse]
  | c :: rest =>
      if c = sep then cur.reverse :: splitCharsAux sep [] rest
      else splitCharsAux sep (c :: cur) rest

/-- Python `s.split(sep)` for a single-character separator. -/
def splitStr (sep : Char) (s : String) : List String :=
  (splitCharsAux sep [] s.data).map (fun cs => ⟨cs⟩)

/-- The path segments of a row: `df_level["Path"].str.split("\\")`.  A row
without a (string) `Path` cell yields no segments. -/
def pathSegs (r : Row) : List String :=
  match r.cell (.str "Path") with
  | some (.str s) => splitStr '\\' s
  | _ => []

/-- Key cell `i` of a row: segment `4 + i` of the split path
(`.loc[:, 4:]` drops the four fixed infrastructure segments; shorter paths
pad with missing values, as pandas `expand=True` does). -/
def keyCell (r : Row) (i : Nat) : Cell :=
  ((pathSegs r).drop 4).get? i |>.map Val.str

/-- Does the row carry `Level == level`? (`df[df["Level"] == level]`). -/
def levelIs (level : Nat) (r : Row) : Bool :=
  r.cell (.str "Level") == some (.nat level)

/-- The column-keep test of `df_level.dropna(how="all", axis=1)`: a column
survives iff some row of the sub-table has a value in it. -/
def keepCol (rows : List Row) (c : ColName) : Bool :=
  rows.any (fun r => (Row.cell r c).isSome)

/-- The rows of one level: `df[df["Level"] == level]`. -/
def levelRows (df : DF) (level : Nat) : List Row :=
  df.rows.filter (levelIs level)

/-- The per-level column-keep test after row selection. -/
def levelKeep (df : DF) (level : Nat) : ColName → Bool :=
  keepCol (levelRows df level)

/-- Not the `Path` column (dropped after the key split). -/
def notPathCol (c : ColName) : Bool := !(c == ColName.str "Path")

/-- The per-level sub-table built by `EventHierarchy.condense` for one
`level` (src/src/PIconnect/PIAF.py lines 1658-1677): select the rows of
this level, drop all-missing columns, split `Path` into the auxiliary key
columns `0..level`, drop `Path`, and rename the remaining non-key columns
with the bracket suffix. -/
def levelSub (df : DF) (level : Nat) : DF :=
  { cols := (((df.cols.filter (levelKeep df level)
        ++ (List.range (level + 1)).map ColName.idx).filter notPathCol).map (renameCol level))
    rows := ((levelRows df level).map (fun r =>
        (r.filter (fun p => levelKeep df level p.1))
          ++ (List.range (level + 1)).map (fun i => (ColName.idx i, keyCell r i)))).map
      (fun r => (r.filter (fun p => notPathCol p.1)).map
        (fun p => (renameCol level p.1, p.2))) }

/-- Do two rows agree on all key columns? (the pandas merge match test;
missing keys match missing keys, as in pandas joins). -/
def matchesOn (ks : List ColName) (a b : Row) : Bool :=
  ks.all (fun k => a.cell k == b.cell k)

/-- `pd.merge(left, right, how="outer", left_on=ks, right_on=ks)` for the
shapes condense produces (the non-key columns of the two frames are
disjoint, so no `_x`/`_y` suffixing arises): every left row is joined with
each matching right row, or padded with missing values when it has no
match; right rows without any match survive with the left-only non-key
columns missing. -/
def outerMerge (ks : List ColName) (l r : DF) : DF :=
  let rOnly := r.cols.filter (fun c => !(l.cols.contains c))
  let leftPart := l.rows.flatMap (fun lr =>
    let ms := r.rows.filter (fun rr => matchesOn ks lr rr)
    if ms.isEmpty then [lr ++ rOnly.map (fun c => (c, (none : Cell)))]
    else ms.map (fun rr => lr ++ rOnly.map (fun c => (c, rr.cell c))))
  let rightPart := (r.rows.filter (fun rr => l.rows.all (fun lr => !(matchesOn ks lr rr)))).map
    (fun rr =>
      l.cols.map (fun c => (c, if ks.contains c then rr.cell c else (none : Cell)))
        ++ rOnly.map (fun c => (c, rr.cell c)))
  { cols := l.cols ++ rOnly, rows := leftPart ++ rightPart }

/-- The merge keys used at `level`: `cols[:-1] = [0, ..., level-1]`. -/
def keyCols (level : Nat) : List ColName := (List.range level).map .idx

/-- One iteration of the condense merge loop for `level > min(Level)`
(src/src/PIconnect/PIAF.py lines 1661-1688): an empty level contributes the
`"TempValue"` placeholder column, otherwise the processed sub-table is
outer-merged with the running condensed table on the shared key prefix. -/
def condenseLevel (df : DF) (acc : DF) (level : Nat) : DF :=
  let sub := levelSub df level
  if sub.rows.isEmpty then
    { cols := acc.cols ++ [ColName.idx level]
      rows := acc.rows.map (fun r => r ++ [(ColName.idx level, some (Val.str "TempValue"))]) }
  else outerMerge (keyCols level) acc sub

/-- Drop the integer-labelled auxiliary key columns
(`type(col_name) == int`). -/
def dropIntCols (df : DF) : DF :=
  let isStr := fun c : ColName => match c with | .str _ => true | .idx _ => false
  { cols := df.cols.filter isStr
    rows := df.rows.map (fun r => r.filter (fun p => isStr p.1)) }

/-- `drop_duplicates(keep="first")` over the stringified rows; our cell
representation is injective, so this is row equality. -/
def dedupeRows (seen : List Row) : List Row → List Row
  | [] => []
  | r :: rest =>
      if seen.contains r then dedupeRows seen rest
      else r :: dedupeRows (r :: seen) rest

def dedupe (df : DF) : DF := { df with rows := dedupeRows [] df.rows }

/-- `col_name.startswith("Endtime")` for a column label. -/
def isEndCol (c : ColName) : Bool :=
  match c with
  | .str s => "Endtime".data.isPrefixOf s.data
  | .idx _ => false

/-- The `Endtime`-family columns: string labels starting with `"Endtime"`
(`col_name.startswith("Endtime")`), in column order. -/
def endtimeProj (cols : List ColName) : List ColName :=
  cols.filter isEndCol

/-- Sequential `fillna` chain of src/src/PIconnect/PIAF.py lines 1711-1717,
acting on one row: for every Endtime column after the first, a missing
value is replaced by the (already filled) value of the previous Endtime
column; the first column (`i == 0`) is skipped (`if not i == 0`). -/
def fillChainGo (prev : ColName) (r : Row) : List ColName → Row
  | [] => r
  | c :: rest =>
      let v := if (r.cell c).isSome then r.cell c else r.cell prev
      fillChainGo c (r.set c v) rest

def fillChainRow (ecols : List ColName) (r : Row) : Row :=
  match ecols with
  | [] => r
  | c0 :: rest => fillChainGo c0 r rest

/-- The NaT-fill stage of `EventHierarchy.condense` in
src/src/PIconnect/PIAF.py (lines 1705-1717): each Endtime column after the
first is filled from its predecessor; the first Endtime column is left
untouched. -/
def fillEndtimes (df : DF) : DF :=
  { df with rows := df.rows.map (fillChainRow (endtimeProj df.cols)) }

/-- The legacy NaT-fill of the top-level copy (src/PIconnect/PIAF.py lines
1441-1457): the first Endtime column's missing values are filled with
`now` (current time in the configured display timezone) before the same
parent-to-child chain. -/
def fillChainRowLegacy (now : Val) (ecols : List ColName) (r : Row) : Row :=
  match ecols with
  | [] => r
  | c0 :: rest =>
      let v0 := if (r.cell c0).isSome then r.cell c0 else some now
      fillChainGo c0 (r.set c0 v0) rest

def fillEndtimesLegacy (now : Val) (df : DF) : DF :=
  { df with rows := df.rows.map (fillChainRowLegacy now (endtimeProj df.cols)) }

/-- Levels present in the frame (`df["Level"]`, missing entries ignored —
the source would fail on them at `int(...)`). -/
def levelList (df : DF) : List Nat :=
  df.rows.filterMap (fun r => match r.cell (.str "Level") with
    | some (.nat n) => some n
    | _ => none)

/-- `EventHierarchy.condense` without the final NaT fill
(src/src/PIconnect/PIAF.py lines 1648-1703): iterate the levels from
`min(Level)` to `max(Level)`, starting from the minimum level's sub-table,
then drop the auxiliary integer key columns and remove duplicate rows.
`none` models the exception the source raises on a frame without levels. -/
def condenseCore (df : DF) : Option DF :=
  match (levelList df).min?, (levelList df).max? with
  | some lo, some hi =>
      some (dedupe (dropIntCols
        (((List.range' (lo + 1) (hi - lo)).foldl (condenseLevel df) (levelSub df lo)))))
  | _, _ => none

/-- `EventHierarchy.condense` of src/src/PIconnect/PIAF.py: the merge loop
followed by the Endtime NaT fill. -/
def condense (df : DF) : Option DF :=
  (condenseCore df).map fillEndtimes

/-- The `Name`-family columns (`Name`, `Name [0]`, ...). -/
def nameProj (cols : List ColName) : List ColName :=
  cols.filter (fun c => match c with
    | .str s => "Name".data.isPrefixOf s.data
    | .idx _ => false)

/-- The column schema `EventHierarchy.validate` requires. -/
def baseCols : List ColName :=
  [.str "Event", .str "Path", .str "Name", .str "Template",
   .str "Level", .str "Starttime", .str "Endtime"]

/-- One hierarchy row as produced by `get_event_hierarchy`: an `Event`
handle, the event path, name, optional template, the level
(`Path.str.count("\\") - 4`), and optional start/end times. -/
def hrow (ev : Nat) (path name : String) (tmpl : Option String) (lvl : Nat)
    (st et : Option Nat) : Row :=
  [(.str "Event", some (.nat ev)),
   (.str "Path", some (.str path)),
   (.str "Name", some (.str name)),
   (.str "Template", tmpl.map .str),
   (.str "Level", some (.nat lvl)),
   (.str "Starttime", st.map .nat),
   (.str "Endtime", et.map .nat)]

/-- The C4 scenario hierarchy: 2 roots, each with 1 child at level 1,
each child with 2 grandchildren at level 2. -/
def scenarioH : DF :=
  { cols := baseCols
    rows :=
      [hrow 1 "\\\\SRV\\DB\\R1" "R1" (some "Proc") 0 (some 0) (some 100),
       hrow 2 "\\\\SRV\\DB\\R2" "R2" (some "Proc") 0 (some 0) (some 200),
       hrow 3 "\\\\SRV\\DB\\R1\\C1" "C1" (some "Op") 1 (some 0) (some 50),
       hrow 4 "\\\\SRV\\DB\\R2\\C2" "C2" (some "Op") 1 (some 0) (some 60),
       hrow 5 "\\\\SRV\\DB\\R1\\C1\\G11" "G11" (some "Ph") 2 (some 0) (some 10),
       hrow 6 "\\\\SRV\\DB\\R1\\C1\\G12" "G12" (some "Ph") 2 (some 10) (some 20),
       hrow 7 "\\\\SRV\\DB\\R2\\C2\\G21" "G21" (some "Ph") 2 (some 0) (some 30),
       hrow 8 "\\\\SRV\\DB\\R2\\C2\\G22" "G22" (some "Ph") 2 (some 30) (some 40)] }

/-- C4. Condensing the two-roots / one-child-each / two-grandchildren-each
hierarchy yields exactly 4 rows (one per level-2 leaf path) and exactly 3
`Name [*]` column families (one per level). -/
theorem condense_scenario_rows_and_name_families :
    (condense scenarioH).map (fun d => (d.rows.length, (nameProj d.cols).length))
      = some (4, 3) := by decide

/-- A hierarchy whose root `R2` has an open (missing) end time. -/
def scenarioOpenRoot : DF :=
  { cols := baseCols
    rows :=
      [hrow 1 "\\\\SRV\\DB\\R1" "R1" (some "Proc") 0 (some 0) (some 100),
       hrow 2 "\\\\SRV\\DB\\R2" "R2" (some "Proc") 0 (some 0) none,
       hrow 3 "\\\\SRV\\DB\\R1\\C1" "C1" (some "Op") 1 (some 0) (some 50),
       hrow 4 "\\\\SRV\\DB\\R2\\C2" "C2" (some "Op") 1 (some 0) (some 60)] }

/-- C2 counterexample. In `EventHierarchy.condense` of
src/src/PIconnect/PIAF.py, a missing value in the level-0 `Endtime [0]`
column is NOT filled with the current time (nor with anything else): the
fill loop skips index 0 (`if not i == 0`), so the cell stays missing in the
condensed output. -/
theorem condense_level0_endtime_not_filled :
    (condense scenarioOpenRoot).map
        (fun d => d.rows.map (fun r => Row.cell r (.str "Endtime [0]")))
      = some [some (Val.nat 100), none] := by decide

/-- A 3-level hierarchy in which only the root has an explicit end time. -/
def scenarioRootOnlyEnd : DF :=
  { cols := baseCols
    rows :=
      [hrow 1 "\\\\SRV\\DB\\R1" "R1" (some "Proc") 0 (some 0) (some 100),
       hrow 3 "\\\\SRV\\DB\\R1\\C1" "C1" (some "Op") 1 (some 0) none,
       hrow 5 "\\\\SRV\\DB\\R1\\C1\\G11" "G11" (some "Ph") 2 (some 0) none] }

/-- C5 counterexample. Condensing a 3-level hierarchy where only the root
has an explicit end time does not produce three `Endtime [*]` columns at
all: the all-missing level-1 and level-2 `Endtime` columns are dropped by
`dropna(how="all", axis=1)` before the merge, so the output has exactly one
`Endtime` column (and not the three columns the claim compares). -/
theorem condense_root_only_end_single_endtime_col :
    (condense scenarioRootOnlyEnd).map (fun d => endtimeProj d.cols)
      = some [.str "Endtime [0]"] := by decide

/-! ## Per-row tag-column extraction (`col=True` branches of
`CondensedEventHierarchy.interpol_discrete_extract` and
`CondensedEventHierarchy.summary_extract`, src/src/PIconnect/PIAF.py) -/

/-- A row of the condensed frame as the `col=True` extraction branches see
it after column selection: the bottom-level `Event` handle plus the string
cell of the designated tag column. -/
structure XRow where
  event : Nat
  tags : String
deriving DecidableEq, Repr

/-- `df["Tags"].str.contains(",")` for one cell. -/
def cellHasComma (s : String) : Bool := s.data.contains ','

/-- `tg.replace(" ", "").split(",")`: strip every space, then split the
cell into the comma-separated tag names. -/
def splitTagsCell (s : String) : List String :=
  (splitCharsAux ',' [] (s.data.filter (fun c => !(c == ' ')))).map (fun cs => ⟨cs⟩)

/-- The `col=True` branch of
`CondensedEventHierarchy.interpol_discrete_extract` (src/src/PIconnect/
PIAF.py lines 2248-2299): if any cell of the tag column contains a comma it
raises `AttributeError("Cell can only contain one Tag at a time")`;
otherwise each row is extracted with its single raw cell value as the one
tag (`[row[tags]]`).  `ival` is the data-source oracle returning the
interpolated records of one event for one tag. -/
def interpol_discrete_extract_col (ival : Nat → String → List Val)
    (rows : List XRow) : Except String (List (Nat × String × Val)) :=
  if rows.any (fun r => cellHasComma r.tags) then
    .error "Cell can only contain one Tag at a time"
  else
    .ok (rows.flatMap (fun r => (ival r.event r.tags).map (fun v => (r.event, r.tags, v))))

/-- The `col=True` branch of `CondensedEventHierarchy.summary_extract`
(src/src/PIconnect/PIAF.py lines 2705-2751): each cell is space-stripped
and split on commas, every resulting tag name is resolved and included in
that row's summary extraction (`convert_to_TagList(tg.replace(" ",
"").split(","), dataserver)`), with one output record per row, tag and
summary value.  `summ` is the data-source oracle returning the summary
records of one event for one tag. -/
def summary_extract_col (summ : Nat → String → List Val)
    (rows : List XRow) : List (Nat × String × Val) :=
  rows.flatMap (fun r =>
    (splitTagsCell r.tags).flatMap (fun t =>
      (summ r.event t).map (fun v => (r.event, t, v))))

/-- C1 counterexample.  For the cell `"A, B"` the code behaves exactly
opposite to the claim: per-row time-series extraction
(`interpol_discrete_extract` with `col=True`) raises the one-tag-per-cell
error instead of including both tags, while per-row summary extraction
(`summary_extract` with `col=True`) splits the cell and includes records
for both tags A and B instead of raising. -/
theorem tag_cell_contract_counterexample :
    interpol_discrete_extract_col (fun _ t => [.str t]) [⟨1, "A, B"⟩]
        = .error "Cell can only contain one Tag at a time" ∧
    summary_extract_col (fun _ t => [.str t]) [⟨1, "A, B"⟩]
        = [(1, "A", .str "A"), (1, "B", .str "B")] := ⟨rfl, by decide⟩

/-- C1 amended.  The tag cell contract of the `col=True` branches is the
inverse of the claimed one: (a) in per-row time-series mode
(`interpol_discrete_extract`, `col=True`) any cell containing a comma makes
the whole extraction raise `"Cell can only contain one Tag at a time"`;
(b) in per-row summary mode (`summary_extract`, `col=True`) every
comma-separated tag of a cell is included in that row's extraction. -/
theorem tag_cell_contract_inverted :
    (∀ (ival : Nat → String → List Val) (rows : List XRow) (r : XRow),
        r ∈ rows → cellHasComma r.tags = true →
        interpol_discrete_extract_col ival rows
          = .error "Cell can only contain one Tag at a time") ∧
    (∀ (summ : Nat → String → List Val) (rows : List XRow) (r : XRow)
        (t : String) (v : Val),
        r ∈ rows → t ∈ splitTagsCell r.tags → v ∈ summ r.event t →
        (r.event, t, v) ∈ summary_extract_col summ rows) := by
  constructor
  · intro ival rows r hr hc
    have : rows.any (fun r => cellHasComma r.tags) = true :=
      List.any_eq_true.mpr ⟨r, hr, hc⟩
    simp [interpol_discrete_extract_col, this]
  · intro summ rows r t v hr ht hv
    unfold summary_extract_col
    exact List.mem_flatMap.mpr ⟨r, hr,
      List.mem_flatMap.mpr ⟨t, ht, List.mem_map.mpr ⟨v, hv, rfl⟩⟩⟩

/-- Witness for C1 amended at concrete inputs. -/
theorem tag_cell_contract_inverted_witness :
    (⟨1, "A, B"⟩ : XRow) ∈ [(⟨1, "A, B"⟩ : XRow)] ∧
    cellHasComma "A, B" = true ∧
    interpol_discrete_extract_col (fun _ _ => []) [⟨1, "A, B"⟩]
      = .error "Cell can only contain one Tag at a time" ∧
    "B" ∈ splitTagsCell "A, B" ∧
    Val.str "vB" ∈ [Val.str "vB"] ∧
    (1, "B", Val.str "vB") ∈ summary_extract_col (fun _ t => [.str ("v" ++ t)]) [⟨1, "A, B"⟩] := by
  refine ⟨by decide, by decide, ?_, by decide, by decide, ?_⟩
  · exact tag_cell_contract_inverted.1 (fun _ _ => []) [⟨1, "A, B"⟩] ⟨1, "A, B"⟩
      (by decide) (by decide)
  · exact tag_cell_contract_inverted.2 (fun _ t => [.str ("v" ++ t)]) [⟨1, "A, B"⟩]
      ⟨1, "A, B"⟩ "B" (.str "vB") (by decide) (by decide) (by decide)

/-! ## Chunked-parallel runner (src/PIconnect/thread.py) -/

/-- Python exception kinds the threading model can surface. -/
inductive PyErr where
  | attributeError (msg : String)
  | nameError
  | valueError
  | zeroDivisionError
deriving DecidableEq, Repr

/-- `chunk(obj, chunk_size)` of src/PIconnect/thread.py lines 10-29: the
loop runs `i = 1 .. len(obj) // chunk_size + 1` and takes the slice
`obj[(i-1)*chunk_size : i*chunk_size]` (the `i == 0` branch is dead code),
so the slices cover the whole input in order and, when `chunk_size`
divides the length, a final empty slice is appended.  Requires
`chunk_size > 0` (the source raises `ZeroDivisionError` otherwise, which
`threading` below models before using this). -/
def chunkFn (obj : List α) (chunk_size : Nat) : List (List α) :=
  (List.range' 1 (obj.length / chunk_size + 1)).map
    (fun i => (obj.drop ((i - 1) * chunk_size)).take chunk_size)

/-- The methods `threading` can be called with, by the class their
`__qualname__` names and whether they are one of the whitelisted extract
methods of that class. -/
inductive PiMethod where
  | ecdSummary | ecdInterpolDiscrete | ecdCalcSummary | ecdOther
  | ehySummary | ehyInterpolDiscrete | ehyCalcSummary | ehyOther
  | tagListMethod
  | otherMethod
deriving DecidableEq, Repr

/-- The source-type dispatch of `threading`: the ordered substring checks
`"CondensedEventHierarchy" in qualname` / `elif "EventHierarchy" in
qualname` / `elif "TagList" in qualname` / `else`. -/
inductive SrcClass where
  | ecd | ehy | tag | noThread
deriving DecidableEq, Repr

def classify : PiMethod → SrcClass
  | .ecdSummary | .ecdInterpolDiscrete | .ecdCalcSummary | .ecdOther => .ecd
  | .ehySummary | .ehyInterpolDiscrete | .ehyCalcSummary | .ehyOther => .ehy
  | .tagListMethod => .tag
  | .otherMethod => .noThread

/-- The whitelist test of the `CondensedEventHierarchy` branch. -/
def ecdWhitelisted : PiMethod → Bool
  | .ecdSummary | .ecdInterpolDiscrete | .ecdCalcSummary => true
  | _ => false

/-- The whitelist test of the `EventHierarchy` branch. -/
def ehyWhitelisted : PiMethod → Bool
  | .ehySummary | .ehyInterpolDiscrete | .ehyCalcSummary => true
  | _ => false

/-- `source_extract` of src/PIconnect/thread.py lines 32-60: the worker
body run in each thread.  It only handles `typ == "ecd"` and
`typ == "ehy"`; for any other type marker the local `result` is never
assigned and `queue.append(result)` raises an unhandled
`NameError`/`UnboundLocalError`. -/
def source_extract (cls : SrcClass) (worker : List α → Except PyErr (List β))
    (chunkPart : List α) : Except PyErr (List β) :=
  match cls with
  | .ecd => worker chunkPart
  | .ehy => worker chunkPart
  | _ => .error .nameError

/-- `threading(source, method, args, chunk_size)` of src/PIconnect/
thread.py lines 63-143.  `worker` models what the bound method computes on
one chunk (an exception inside a worker thread kills only that thread, so
a failed chunk appends nothing to the shared queue).  The `TagList` branch
sets the type marker but never assigns `lst_chunk` (modelled by `none`),
so the later `for i in range(len(lst_chunk))` raises `NameError`; the
final `pd.concat(queue)` raises `ValueError` when the queue is empty. -/
def threading (m : PiMethod) (worker : List α → Except PyErr (List β))
    (source : List α) (chunk_size : Nat) : Except PyErr (List β) :=
  match classify m with
  | .noThread => .error (.attributeError
      "The method currently has no threading functionality available")
  | cls =>
    let lst_chunk : Option (List (List α)) :=
      match cls with
      | .ecd => some (chunkFn source chunk_size)
      | .ehy => some (chunkFn source chunk_size)
      | _ => none
    if (cls = .ecd ∨ cls = .ehy) ∧ chunk_size = 0 then .error .zeroDivisionError
    else if cls = .ecd ∧ ecdWhitelisted m = false then .error (.attributeError
      "Threading only works for summary_extract, calc_summary_extract and interpol_discrete_extract methods")
    else if cls = .ehy ∧ ehyWhitelisted m = false then .error (.attributeError
      "Threading only works for summary_extract, calc_summary_extract and interpol_discrete_extract methods")
    else
      match lst_chunk with
      | none => .error .nameError
      | some chunks =>
          let queue := chunks.filterMap
            (fun c => (source_extract cls worker c).toOption)
          if queue.isEmpty then .error .valueError
          else .ok queue.flatten

/-- `CondensedEventHierarchy.summary_extract` as the chunked runner uses
it, reduced to its row structure: constructing
`CondensedEventHierarchy(df)` validates the frame (an empty chunk fails
validation, since the `Event` column's value-type set is empty), and the
extraction itself produces the concatenation of per-row record lists (one
output row per input row, tag and summary type), so it is a flat map over
the rows.  `perRow` is the data-source oracle for one row. -/
def summaryExtract (perRow : α → List β) (rows : List α) : Except PyErr (List β) :=
  if rows.isEmpty then
    .error (.attributeError "This dataframe does not have the correct CondensedHierarchy format")
  else .ok (rows.flatMap perRow)

theorem chunk_segment_flatten (l : List α) (cs : Nat) :
    ∀ (n k : Nat), 1 ≤ k →
      ((List.range' k n).map (fun i => (l.drop ((i - 1) * cs)).take cs)).flatten
        = (l.drop ((k - 1) * cs)).take (n * cs) := by
  intro n
  induction n with
  | zero => simp
  | succ n ih =>
      intro k hk
      obtain ⟨k', rfl⟩ : ∃ k', k = k' + 1 := ⟨k - 1, by omega⟩
      rw [List.range'_succ, List.map_cons, List.flatten_cons, ih (k' + 2) (by omega)]
      have h2 : (k' + 2 - 1) * cs = (k' + 1 - 1) * cs + cs := by
        simp [Nat.succ_mul]
      rw [h2, ← List.drop_drop, Nat.succ_mul, Nat.add_comm (n * cs) cs, List.take_add]

theorem chunkFn_flatten (l : List α) (cs : Nat) (hcs : 0 < cs) :
    (chunkFn l cs).flatten = l := by
  unfold chunkFn
  rw [chunk_segment_flatten l cs (l.length / cs + 1) 1 le_rfl]
  simp only [Nat.sub_self, Nat.zero_mul, List.drop_zero]
  apply List.take_of_length_le
  calc l.length = cs * (l.length / cs) + l.length % cs := (Nat.div_add_mod _ _).symm
    _ ≤ cs * (l.length / cs) + cs := by
        exact Nat.add_le_add_left (Nat.le_of_lt (Nat.mod_lt _ hcs)) _
    _ = (l.length / cs + 1) * cs := by ring

theorem flatten_chunk_workers (perRow : α → List β) :
    ∀ (chunks : List (List α)),
      ((chunks.filterMap
          (fun c => if c.isEmpty then none else some (c.flatMap perRow))).flatten)
        = (chunks.flatten).flatMap perRow := by
  intro chunks
  induction chunks with
  | nil => simp
  | cons c rest ih =>
      by_cases hc : c.isEmpty
      · have : c = [] := List.isEmpty_iff.mp hc
        simp [this, ih]
      · simp [hc, ih]

/-- C7. Chunk/merge equivalence: for a nonempty condensed table and any
chunk size in `{1, len(table), len(table)+1}`, running the summary
extraction through the chunked runner (`threading` with the whitelisted
`CondensedEventHierarchy.summary_extract` and `chunk_size=N`) produces
exactly the rows of the unchunked `summary_extract` of the whole table
(the model concatenates worker results in chunk order; the runner's
nondeterministic queue order permutes whole chunks only, so the rows agree
as a set/multiset for every order). -/
theorem chunked_summary_equivalence (source : List α) (perRow : α → List β)
    (chunk_size : Nat) (hne : source ≠ [])
    (hcs : chunk_size = 1 ∨ chunk_size = source.length ∨ chunk_size = source.length + 1) :
    threading .ecdSummary (summaryExtract perRow) source chunk_size
        = .ok (source.flatMap perRow) ∧
    summaryExtract perRow source = .ok (source.flatMap perRow) := by
  have hlen : 0 < source.length := List.length_pos.mpr hne
  have hpos : 0 < chunk_size := by rcases hcs with h | h | h <;> omega
  have hz : ¬ chunk_size = 0 := Nat.pos_iff_ne_zero.mp hpos
  constructor
  · unfold threading
    simp only [classify, ecdWhitelisted, source_extract]
    rw [if_neg (fun h => hz h.2), if_neg (by simp), if_neg (by simp)]
    have hworker : ∀ c : List α, (summaryExtract perRow c).toOption
        = if c.isEmpty then none else some (c.flatMap perRow) := by
      intro c
      unfold summaryExtract
      by_cases hc : c.isEmpty <;> simp [hc, Except.toOption]
    simp only [hworker]
    have hflat : ((chunkFn source chunk_size).filterMap
        (fun c => if c.isEmpty then none else some (c.flatMap perRow))).flatten
        = source.flatMap perRow := by
      rw [flatten_chunk_workers, chunkFn_flatten source chunk_size hpos]
    have hrest : chunkFn source chunk_size
        = source.take chunk_size ::
          (List.range' 2 (source.length / chunk_size)).map
            (fun i => (source.drop ((i - 1) * chunk_size)).take chunk_size) := by
      unfold chunkFn
      rw [List.range'_succ, List.map_cons]
      simp
    have htake : (source.take chunk_size).isEmpty = false := by
      rw [List.isEmpty_eq_false_iff_exists_mem]
      obtain ⟨a, as, rfl⟩ : ∃ a as, source = a :: as := by
        cases source with
        | nil => exact absurd rfl hne
        | cons a as => exact ⟨a, as, rfl⟩
      obtain ⟨c', rfl⟩ : ∃ c', chunk_size = c' + 1 := ⟨chunk_size - 1, by omega⟩
      exact ⟨a, by simp⟩
    have hqueue : ((chunkFn source chunk_size).filterMap
        (fun c => if c.isEmpty then none else some (c.flatMap perRow))).isEmpty = false := by
      rw [hrest]
      simp only [List.filterMap_cons, htake, if_false, Bool.false_eq_true, List.isEmpty_cons]
    simp only [hqueue, if_false, Bool.false_eq_true, hflat]
  · unfold summaryExtract
    rw [if_neg (by simp [List.isEmpty_iff, hne])]

/-- Witness for C7 at a concrete table and chunk size. -/
theorem chunked_summary_equivalence_witness :
    ([0, 1, 2] : List Nat) ≠ [] ∧
    threading .ecdSummary (summaryExtract (fun n => [n, n + 10])) [0, 1, 2] 1
      = .ok [0, 10, 1, 11, 2, 12] := by
  refine ⟨by decide, ?_⟩
  exact (chunked_summary_equivalence [0, 1, 2] (fun n => [n, n + 10]) 1
    (by decide) (Or.inl rfl)).1

/-- C10.  Calling `threading` with a `TagList` method fails with an
unhandled `NameError` before any worker produces a result: the `TagList`
branch sets the type marker but never assigns `lst_chunk`, so the loop
`for i in range(len(lst_chunk))` raises; and even `source_extract` itself
has no `"tag"` case, so a worker would raise `NameError` at
`queue.append(result)` with `result` unassigned.  Chunked execution can
therefore never succeed for a tag-list source. -/
theorem threading_taglist_name_error (worker : List α → Except PyErr (List β))
    (source : List α) (chunk_size : Nat) (chunkPart : List α) :
    threading .tagListMethod worker source chunk_size = .error .nameError ∧
    source_extract .tag worker chunkPart = .error .nameError := by
  constructor
  · unfold threading
    simp only [classify]
    rw [if_neg (by simp), if_neg (by simp), if_neg (by simp)]
  · rfl

/-! ## Tag resolution (`PIServer.find_tags` and `convert_to_TagList`,
src/src/PIconnect/PI.py) -/

/-- A resolved tag (name plus opaque handle, the handle elided). -/
structure Tag where
  name : String
deriving DecidableEq, Repr

/-- `PIServer.find_tags` on a single string query (src/src/PIconnect/PI.py
lines 191-202): ask the data source (`AF.PI.PIPoint.FindPIPoints`, the
oracle `src`) and raise `AttributeError("No tags were found for query:
{query}")` when the result is empty. -/
def find_tags_single (src : String → List Tag) (q : String) : Except String (List Tag) :=
  let result := src q
  if result.isEmpty then .error ("No tags were found for query: " ++ q)
  else .ok result

/-- `PIServer.find_tags` on a list query (src/src/PIconnect/PI.py lines
181-184): `[y for x in query for y in self.find_tags(x, source)]` — each
element is resolved in order and the first failing element's error
propagates. -/
def find_tags_list (src : String → List Tag) : List String → Except String (List Tag)
  | [] => .ok []
  | q :: rest =>
      match find_tags_single src q with
      | .error e => .error e
      | .ok r =>
          match find_tags_list src rest with
          | .error e => .error e
          | .ok rs => .ok (r ++ rs)

/-- The argument shapes `convert_to_TagList` distinguishes: a bare string,
an already-resolved `TagList`, or a plain list of string identifiers. -/
inductive TagSpec where
  | str (s : String)
  | taglist (l : List Tag)
  | strs (l : List String)
deriving DecidableEq, Repr

/-- `convert_to_TagList(tag_list, dataserver)` (src/src/PIconnect/PI.py
lines 1290-1321): a bare string raises; a `TagList` is returned as-is;
otherwise `TagList(tag_list)` is tried (it validates that every element is
a `Tag`, so it succeeds exactly on the empty list when the elements are
strings) and on failure the list is resolved through
`dataserver.find_tags`, or, without a dataserver, raises
`AttributeError("Specifiy a dataserver argument when using tags in string
format")`. -/
def convert_to_TagList (spec : TagSpec) (dataserver : Option (String → List Tag)) :
    Except String (List Tag) :=
  match spec with
  | .str _ => .error "Tag(s) need to be inside a list"
  | .taglist l => .ok l
  | .strs qs =>
      if qs.isEmpty then .ok []
      else
        match dataserver with
        | some src => find_tags_list src qs
        | none => .error "Specifiy a dataserver argument when using tags in string format"

/-- C8.  (a) A single tag query the data source resolves to no tag fails
with the NotFound-style error naming that exact query; (b) a nonempty list
of identifiers that resolves to zero tags overall fails with the same
error naming the (first) failing identifier; (c) resolving string
identifiers without a dataserver fails with the error demanding a
dataserver. -/
theorem tag_resolution_not_found :
    (∀ (src : String → List Tag) (q : String), src q = [] →
        find_tags_single src q = .error ("No tags were found for query: " ++ q)) ∧
    (∀ (src : String → List Tag) (q : String) (rest : List String),
        (q :: rest).flatMap src = [] →
        find_tags_list src (q :: rest) = .error ("No tags were found for query: " ++ q)) ∧
    (∀ qs : List String, qs ≠ [] →
        convert_to_TagList (.strs qs) none
          = .error "Specifiy a dataserver argument when using tags in string format") := by
  refine ⟨?_, ?_, ?_⟩
  · intro src q h
    simp [find_tags_single, h]
  · intro src q rest h
    have hq : src q = [] := by
      rw [List.flatMap_cons] at h
      exact (List.append_eq_nil.mp h).1
    unfold find_tags_list
    simp [find_tags_single, hq]
  · intro qs hqs
    cases qs with
    | nil => exact absurd rfl hqs
    | cons a l => rfl

/-- Witness for C8 at concrete inputs: a data source that only knows
`"Known"` fails on `"Missing"` with the exact query in the message. -/
theorem tag_resolution_not_found_witness :
    (fun q => if q = "Known" then [Tag.mk "Known"] else []) "Missing" = ([] : List Tag) ∧
    find_tags_single (fun q => if q = "Known" then [Tag.mk "Known"] else []) "Missing"
      = .error "No tags were found for query: Missing" ∧
    find_tags_list (fun _ => ([] : List Tag)) ["Missing"]
      = .error "No tags were found for query: Missing" ∧
    convert_to_TagList (.strs ["Known"]) none
      = .error "Specifiy a dataserver argument when using tags in string format" := by
  refine ⟨by decide, ?_, ?_, ?_⟩
  · exact tag_resolution_not_found.1 (fun q => if q = "Known" then [Tag.mk "Known"] else [])
      "Missing" (by decide)
  · exact tag_resolution_not_found.2.1 (fun _ => []) "Missing" [] (by decide)
  · exact tag_resolution_not_found.2.2 ["Known"] (by decide)

/-! ## Timestamp conversion (`timestamp_to_index`,
src/src/PIconnect/time.py lines 66-107) -/

/-- A broken-down `System.DateTime` as `timestamp_to_index` reads it:
year, month, day, hour, minute, second and millisecond (the source builds
the Python datetime with `microsecond = Millisecond * 1000`). -/
structure DT where
  y : Nat
  m : Nat
  d : Nat
  h : Nat
  mi : Nat
  s : Nat
  ms : Nat
deriving DecidableEq, Repr

/-- Gregorian leap year (Python `calendar`/`datetime` rule). -/
def isLeap (y : Nat) : Bool := y % 4 == 0 && (!(y % 100 == 0) || y % 400 == 0)

/-- Days in one month. -/
def monthDays (leap : Bool) (m : Nat) : Nat :=
  match m with
  | 1 => 31 | 2 => if leap then 29 else 28 | 3 => 31 | 4 => 30
  | 5 => 31 | 6 => 30 | 7 => 31 | 8 => 31 | 9 => 30 | 10 => 31
  | 11 => 30 | 12 => 31 | _ => 0

/-- Days in the year before month `m` (Python `_days_before_month`). -/
def daysBeforeMonth (leap : Bool) : Nat → Nat
  | 0 => 0
  | 1 => 0
  | m + 1 => daysBeforeMonth leap m + monthDays leap m

/-- Days before January 1st of year `y`
(Python `_days_before_year`). -/
def daysBeforeYear (y : Nat) : Nat :=
  (y - 1) * 365 + (y - 1) / 4 + (y - 1) / 400 - (y - 1) / 100

/-- Python `datetime.toordinal`: day count with 0001-01-01 as day 1. -/
def toOrdinal (dt : DT) : Nat :=
  daysBeforeYear dt.y + daysBeforeMonth (isLeap dt.y) dt.m + dt.d

/-- Microseconds since 0001-01-01 00:00:00 of the naive datetime the
source constructs (microsecond field = `Millisecond * 1000`). -/
def toMicros (dt : DT) : Nat :=
  ((((toOrdinal dt - 1) * 24 + dt.h) * 60 + dt.mi) * 60 + dt.s) * 1000000 + dt.ms * 1000

/-- `datetime(9999, 12, 31, 23, 59, 59)`, the sentinel the source compares
against (microsecond 0, so only a millisecond-0 timestamp matches). -/
def sentinelDT : DT := ⟨9999, 12, 31, 23, 59, 59, 0⟩

/-- `datetime.max = 9999-12-31 23:59:59.999999` in microseconds. -/
def maxDTMicros : Nat := toMicros ⟨9999, 12, 31, 23, 59, 59, 0⟩ + 999999

/-- Valid field ranges of a `System.DateTime` /
Python `datetime` value. -/
def DT.valid (dt : DT) : Prop :=
  1 ≤ dt.y ∧ dt.y ≤ 9999 ∧ 1 ≤ dt.m ∧ dt.m ≤ 12 ∧
  1 ≤ dt.d ∧ dt.d ≤ monthDays (isLeap dt.y) dt.m ∧
  dt.h ≤ 23 ∧ dt.mi ≤ 59 ∧ dt.s ≤ 59 ∧ dt.ms ≤ 999

instance (dt : DT) : Decidable dt.valid := by
  unfold DT.valid
  infer_instance

/-- `timestamp_to_index` (src/src/PIconnect/time.py lines 66-107): the
sentinel maximum date converts to `NaN` (`none`); every other timestamp is
re-interpreted as UTC and shifted into the configured display timezone,
modelled as a fixed offset of `off` minutes.  The bare `except` of the
source catches the `OverflowError` that `astimezone` raises when the
shifted instant leaves the representable `datetime` range, and returns
`NaN` for it as well.  The `some` result is the shifted instant in
microseconds since 0001-01-01. -/
def timestamp_to_index (off : Int) (dt : DT) : Option Int :=
  if dt = sentinelDT then none
  else
    let shifted : Int := (toMicros dt : Int) + off * 60000000
    if shifted < 0 ∨ (maxDTMicros : Int) < shifted then none
    else some shifted

/-- C9 counterexample.  The timestamp 9999-12-31 23:59:59.999 is not the
sentinel (the sentinel comparison requires millisecond 0), and with a
positive display-timezone offset (UTC+01:00, i.e. 60 minutes) its
conversion overflows `datetime.max`, so the bare `except` yields `NaN`
instead of a timestamp in the display timezone. -/
theorem timestamp_overflow_counterexample :
    (⟨9999, 12, 31, 23, 59, 59, 999⟩ : DT).valid ∧
    (⟨9999, 12, 31, 23, 59, 59, 999⟩ : DT) ≠ sentinelDT ∧
    timestamp_to_index 60 ⟨9999, 12, 31, 23, 59, 59, 999⟩ = none := by
  refine ⟨by decide, by decide, ?_⟩
  rw [timestamp_to_index, if_neg (by decide), if_pos (by decide)]

/-- C9 amended.  For valid timestamps: the sentinel maximum date converts
to `NaN`; any other timestamp converts to the same instant shifted by the
display-timezone offset — `some m` is returned exactly when that shifted
instant stays within the representable datetime range (and then `m` is the
shifted instant), and `NaN` is returned when the shift overflows. -/
theorem timestamp_conversion_spec (off : Int) (dt : DT) (_hv : dt.valid) :
    (dt = sentinelDT → timestamp_to_index off dt = none) ∧
    (dt ≠ sentinelDT → ∀ m : Int,
      (timestamp_to_index off dt = some m ↔
        (m = (toMicros dt : Int) + off * 60000000 ∧ 0 ≤ m ∧ m ≤ (maxDTMicros : Int)))) := by
  constructor
  · intro hs
    simp [timestamp_to_index, hs]
  · intro hs m
    rw [timestamp_to_index, if_neg hs]
    constructor
    · intro h
      by_cases hb : ((toMicros dt : Int) + off * 60000000 < 0
          ∨ (maxDTMicros : Int) < (toMicros dt : Int) + off * 60000000)
      · rw [if_pos hb] at h
        exact absurd h (by simp)
      · rw [if_neg hb] at h
        push_neg at hb
        obtain ⟨hb1, hb2⟩ := hb
        have hm : ((toMicros dt : Int) + off * 60000000) = m := by simpa using h
        exact ⟨hm.symm, by omega, by omega⟩
    · rintro ⟨rfl, h0, hmax⟩
      rw [if_neg (by omega)]

/-- Witness for C9 amended at a concrete non-sentinel timestamp and
offset 0. -/
theorem timestamp_conversion_spec_witness :
    (⟨2020, 6, 1, 12, 0, 0, 0⟩ : DT).valid ∧
    timestamp_to_index 0 ⟨2020, 6, 1, 12, 0, 0, 0⟩
      = some ((toMicros ⟨2020, 6, 1, 12, 0, 0, 0⟩ : Int)) := by
  refine ⟨by decide, ?_⟩
  refine ((timestamp_conversion_spec 0 ⟨2020, 6, 1, 12, 0, 0, 0⟩ (by decide)).2
    (by decide) _).mpr ⟨by omega, ?_, ?_⟩
  · positivity
  · decide

/-! ## Properties of the Endtime fill chain -/

theorem find?_map_update (r : Row) (c : ColName) (v : Cell) :
    (r.map (fun p => if p.1 == c then (c, v) else p)).find? (fun p => p.1 == c)
      = if r.any (fun p => p.1 == c) then some (c, v) else none := by
  rw [List.find?_map]
  have hcomp : ((fun p : ColName × Cell => p.1 == c)
      ∘ (fun p => if p.1 == c then (c, v) else p)) = fun p => p.1 == c := by
    funext p
    by_cases hp : p.1 == c <;> simp [Function.comp, hp]
  rw [hcomp]
  by_cases ha : r.any (fun p => p.1 == c)
  · rw [if_pos ha]
    obtain ⟨p, hp, hpc⟩ := List.any_eq_true.mp ha
    cases hfind : r.find? (fun p => p.1 == c) with
    | none =>
        rw [List.find?_eq_none] at hfind
        exact absurd hpc (by simpa using hfind p hp)
    | some q =>
        have hq : (q.1 == c) = true := by simpa using List.find?_some hfind
        have hq1 : q.1 = c := by simpa using hq
        simp [hq1]
  · have ha' : r.any (fun p => p.1 == c) = false := by
      revert ha
      cases r.any (fun p => p.1 == c) <;> simp
    rw [if_neg (by simp [ha'])]
    have hfind : r.find? (fun p => p.1 == c) = none :=
      List.find?_eq_none.mpr (List.any_eq_false.mp ha')
    rw [hfind]
    rfl

theorem find?_map_update_ne (r : Row) (c c' : ColName) (v : Cell) (h : c' ≠ c) :
    (r.map (fun p => if p.1 == c then (c, v) else p)).find? (fun p => p.1 == c')
      = r.find? (fun p => p.1 == c') := by
  rw [List.find?_map]
  have hcomp : ((fun p : ColName × Cell => p.1 == c')
      ∘ (fun p => if p.1 == c then (c, v) else p)) = fun p => p.1 == c' := by
    funext p
    by_cases hp : p.1 == c
    · have hpc : p.1 = c := by simpa using hp
      have h1 : (c == c') = false := by simpa using fun e => h e.symm
      simp [Function.comp, hp, h1, hpc]
    · simp [Function.comp, hp]
  rw [hcomp]
  cases hfind : r.find? (fun p => p.1 == c') with
  | none => rfl
  | some q =>
      have hq : (q.1 == c') = true := by simpa using List.find?_some hfind
      have hqc : q.1 ≠ c := by
        have hq' : q.1 = c' := by simpa using hq
        rw [hq']
        exact h
      simp [hqc]

theorem Row.cell_set_self (r : Row) (c : ColName) (v : Cell) :
    (r.set c v).cell c = v := by
  unfold Row.set Row.cell
  by_cases h : r.any (fun p => p.1 == c)
  · simp only [h, if_true, find?_map_update, h]
  · simp only [h, if_false, Bool.false_eq_true]
    have hf : r.find? (fun p => p.1 == c) = none := by
      rw [List.find?_eq_none]
      intro p hp
      rcases List.any_eq_false.mp (Bool.not_eq_true _ ▸ h) p hp with hh
      simpa using hh
    rw [List.find?_append, hf]
    simp

theorem Row.cell_set_ne (r : Row) (c c' : ColName) (v : Cell) (h : c' ≠ c) :
    (r.set c v).cell c' = r.cell c' := by
  unfold Row.set Row.cell
  by_cases ha : r.any (fun p => p.1 == c)
  · simp only [ha, if_true, find?_map_update_ne r c c' v h]
  · simp only [ha, if_false, Bool.false_eq_true]
    rw [List.find?_append]
    have hone : [(c, v)].find? (fun p => p.1 == c') = none := by
      have hcc : (c == c') = false := by
        simpa using fun e : c = c' => h e.symm
      simp [List.find?_cons, hcc]
    rw [hone]
    cases r.find? (fun p => p.1 == c') <;> simp

theorem fillChainGo_cell_notin (rest : List ColName) (prev : ColName) (r : Row)
    (c : ColName) (hc : c ∉ rest) :
    (fillChainGo prev r rest).cell c = r.cell c := by
  induction rest generalizing prev r with
  | nil => rfl
  | cons c0 rest' ih =>
      have hc0 : c ≠ c0 := fun e => hc (by rw [e]; exact List.mem_cons_self c0 rest')
      have hcr : c ∉ rest' := fun m => hc (List.mem_cons_of_mem c0 m)
      show (fillChainGo c0 (r.set c0 (if (r.cell c0).isSome then r.cell c0 else r.cell prev)) rest').cell c = r.cell c
      rw [ih c0 _ hcr, Row.cell_set_ne r c0 c _ hc0]

theorem fillChainGo_chain (rest : List ColName) (prev : ColName) (r : Row)
    (hnd : rest.Nodup) (hprev : prev ∉ rest) :
    ∀ (i : Nat) (h : i < rest.length),
      (fillChainGo prev r rest).cell (rest.get ⟨i, h⟩)
        = if (r.cell (rest.get ⟨i, h⟩)).isSome then r.cell (rest.get ⟨i, h⟩)
          else (fillChainGo prev r rest).cell
            ((prev :: rest).get ⟨i, Nat.lt_succ_of_lt h⟩) := by
  induction rest generalizing prev r with
  | nil => intro i h; exact absurd h (by simp)
  | cons c0 rest' ih =>
      intro i h
      have hprev0 : prev ≠ c0 := fun e => hprev (by rw [e]; exact List.mem_cons_self c0 rest')
      have hprevr : prev ∉ rest' := fun m => hprev (List.mem_cons_of_mem c0 m)
      have hc0r : c0 ∉ rest' := (List.nodup_cons.mp hnd).1
      have hndr : rest'.Nodup := (List.nodup_cons.mp hnd).2
      cases i with
      | zero =>
          show (fillChainGo c0 (r.set c0 (if (r.cell c0).isSome then r.cell c0 else r.cell prev)) rest').cell c0
            = if (r.cell c0).isSome then r.cell c0
              else (fillChainGo c0 (r.set c0 (if (r.cell c0).isSome then r.cell c0 else r.cell prev)) rest').cell prev
          rw [fillChainGo_cell_notin rest' c0 _ c0 hc0r, Row.cell_set_self]
          rw [fillChainGo_cell_notin rest' c0 _ prev hprevr,
            Row.cell_set_ne r c0 prev _ hprev0]
      | succ j =>
          have hj : j < rest'.length := by simpa using h
          have hget : rest'.get ⟨j, hj⟩ ≠ c0 := by
            intro e
            exact hc0r (e ▸ List.get_mem rest' j hj)
          have hset : (r.set c0 (if (r.cell c0).isSome then r.cell c0 else r.cell prev)).cell
              (rest'.get ⟨j, hj⟩) = r.cell (rest'.get ⟨j, hj⟩) :=
            Row.cell_set_ne r c0 _ _ hget
          have hstep := ih c0 (r.set c0 (if (r.cell c0).isSome then r.cell c0 else r.cell prev))
            hndr hc0r j hj
          show (fillChainGo c0 (r.set c0 (if (r.cell c0).isSome then r.cell c0 else r.cell prev)) rest').cell (rest'.get ⟨j, hj⟩)
            = if (r.cell (rest'.get ⟨j, hj⟩)).isSome then r.cell (rest'.get ⟨j, hj⟩)
              else (fillChainGo c0 (r.set c0 (if (r.cell c0).isSome then r.cell c0 else r.cell prev)) rest').cell
                ((c0 :: rest').get ⟨j, Nat.lt_succ_of_lt hj⟩)
          rw [hstep, hset]

/-- C2 amended.  In `EventHierarchy.condense` of src/src/PIconnect/PIAF.py
the final NaT fill leaves the first (level-0) `Endtime` column untouched —
missing level-0 end times are NOT filled with the current time — while
every deeper `Endtime` column's missing values are filled from the
immediately shallower (already filled) `Endtime` column, a chained
parent-to-child fallback.  The level-0 now-fill exists only in the legacy
copy src/PIconnect/PIAF.py, whose fill gives the first column `now` as
fallback and then applies the same chain. -/
theorem condense_endtime_fill_behaviour :
    (∀ df : DF, condense df = (condenseCore df).map fillEndtimes) ∧
    (∀ (df : DF) (r : Row), r ∈ df.rows →
        fillChainRow (endtimeProj df.cols) r ∈ (fillEndtimes df).rows) ∧
    (∀ (ecols : List ColName) (r : Row), ecols.Nodup →
      (∀ c0, ecols.head? = some c0 → (fillChainRow ecols r).cell c0 = r.cell c0) ∧
      (∀ (i : Nat) (h : i + 1 < ecols.length),
        (fillChainRow ecols r).cell (ecols.get ⟨i + 1, h⟩)
          = if (r.cell (ecols.get ⟨i + 1, h⟩)).isSome then r.cell (ecols.get ⟨i + 1, h⟩)
            else (fillChainRow ecols r).cell (ecols.get ⟨i, Nat.lt_of_succ_lt h⟩))) ∧
    (∀ (now : Val) (ecols : List ColName) (r : Row), ecols.Nodup →
      (∀ c0, ecols.head? = some c0 →
        (fillChainRowLegacy now ecols r).cell c0
          = if (r.cell c0).isSome then r.cell c0 else some now) ∧
      (∀ (i : Nat) (h : i + 1 < ecols.length),
        (fillChainRowLegacy now ecols r).cell (ecols.get ⟨i + 1, h⟩)
          = if (r.cell (ecols.get ⟨i + 1, h⟩)).isSome then r.cell (ecols.get ⟨i + 1, h⟩)
            else (fillChainRowLegacy now ecols r).cell (ecols.get ⟨i, Nat.lt_of_succ_lt h⟩))) := by
  refine ⟨fun _ => rfl, ?_, ?_, ?_⟩
  · intro df r hr
    exact List.mem_map.mpr ⟨r, hr, rfl⟩
  · intro ecols r hnd
    match ecols, hnd with
    | [], _ => exact ⟨fun c0 h => by simp at h, fun i h => by simp at h⟩
    | c0 :: rest, hnd =>
      have hc0r : c0 ∉ rest := (List.nodup_cons.mp hnd).1
      have hndr : rest.Nodup := (List.nodup_cons.mp hnd).2
      constructor
      · intro c hc
        have hcc : c0 = c := by simpa using hc
        subst hcc
        exact fillChainGo_cell_notin rest c0 r c0 hc0r
      · intro i h
        have hi : i < rest.length := by simpa using h
        have := fillChainGo_chain rest c0 r hndr hc0r i hi
        simpa using this
  · intro now ecols r hnd
    match ecols, hnd with
    | [], _ => exact ⟨fun c0 h => by simp at h, fun i h => by simp at h⟩
    | c0 :: rest, hnd =>
      have hc0r : c0 ∉ rest := (List.nodup_cons.mp hnd).1
      have hndr : rest.Nodup := (List.nodup_cons.mp hnd).2
      constructor
      · intro c hc
        have hcc : c0 = c := by simpa using hc
        subst hcc
        show (fillChainGo c0 (r.set c0 (if (r.cell c0).isSome then r.cell c0 else some now)) rest).cell c0
          = if (r.cell c0).isSome then r.cell c0 else some now
        rw [fillChainGo_cell_notin rest c0 _ c0 hc0r, Row.cell_set_self]
      · intro i h
        have hi : i < rest.length := by simpa using h
        have hchain := fillChainGo_chain rest c0
          (r.set c0 (if (r.cell c0).isSome then r.cell c0 else some now)) hndr hc0r i hi
        have hset : (r.set c0 (if (r.cell c0).isSome then r.cell c0 else some now)).cell
            (rest.get ⟨i, hi⟩) = r.cell (rest.get ⟨i, hi⟩) := by
          refine Row.cell_set_ne r c0 _ _ (fun e => hc0r ?_)
          exact e ▸ List.get_mem rest i hi
        show (fillChainGo c0 (r.set c0 (if (r.cell c0).isSome then r.cell c0 else some now)) rest).cell (rest.get ⟨i, hi⟩)
          = if (r.cell (rest.get ⟨i, hi⟩)).isSome then r.cell (rest.get ⟨i, hi⟩)
            else (fillChainGo c0 (r.set c0 (if (r.cell c0).isSome then r.cell c0 else some now)) rest).cell
              ((c0 :: rest).get ⟨i, Nat.lt_succ_of_lt hi⟩)
        rw [hchain, hset]

/-- Witness for C2 amended: a concrete two-column Endtime family where the
first cell is missing stays missing under the src/src fill and becomes
`now` under the legacy fill. -/
theorem condense_endtime_fill_behaviour_witness :
    condense scenarioOpenRoot = (condenseCore scenarioOpenRoot).map fillEndtimes ∧
    ([ColName.str "Endtime [0]", ColName.str "Endtime [1]"] : List ColName).Nodup ∧
    (fillChainRow [.str "Endtime [0]", .str "Endtime [1]"]
        [(.str "Endtime [0]", (none : Cell)), (.str "Endtime [1]", some (Val.nat 7))]).cell
        (.str "Endtime [0]") = none ∧
    (fillChainRowLegacy (Val.nat 99) [.str "Endtime [0]", .str "Endtime [1]"]
        [(.str "Endtime [0]", (none : Cell)), (.str "Endtime [1]", some (Val.nat 7))]).cell
        (.str "Endtime [0]") = some (Val.nat 99) := by
  refine ⟨condense_endtime_fill_behaviour.1 scenarioOpenRoot, by decide, ?_, ?_⟩
  · have h := (condense_endtime_fill_behaviour.2.2.1
      [.str "Endtime [0]", .str "Endtime [1]"]
      [(.str "Endtime [0]", (none : Cell)), (.str "Endtime [1]", some (Val.nat 7))]
      (by decide)).1 (.str "Endtime [0]") rfl
    rw [h]
    decide
  · have h := (condense_endtime_fill_behaviour.2.2.2 (Val.nat 99)
      [.str "Endtime [0]", .str "Endtime [1]"]
      [(.str "Endtime [0]", (none : Cell)), (.str "Endtime [1]", some (Val.nat 7))]
      (by decide)).1 (.str "Endtime [0]") rfl
    rw [h]
    decide

/-! ## Properties of the condense outer merge -/

theorem find?_beq_self (cols : List ColName) (c : ColName) :
    cols.find? (fun c' => c' == c) = if c ∈ cols then some c else none := by
  by_cases hc : c ∈ cols
  · rw [if_pos hc]
    cases hf : cols.find? (fun c' => c' == c) with
    | none =>
        rw [List.find?_eq_none] at hf
        exact absurd (by simp : (c == c) = true) (by simpa using hf c hc)
    | some c'' =>
        have : c'' = c := by simpa using List.find?_some hf
        rw [this]
  · rw [if_neg hc]
    refine List.find?_eq_none.mpr ?_
    intro x hx
    simpa using fun e : x = c => hc (e ▸ hx)

theorem find?_map_pair (cols : List ColName) (g : ColName → Cell) (c : ColName) :
    (cols.map (fun c' => (c', g c'))).find? (fun p => p.1 == c)
      = if c ∈ cols then some (c, g c) else none := by
  rw [List.find?_map]
  have hcomp : ((fun p : ColName × Cell => p.1 == c) ∘ (fun c' => (c', g c')))
      = fun c' => c' == c := rfl
  rw [hcomp, find?_beq_self]
  by_cases hc : c ∈ cols <;> simp [hc]

/-- Reading a column of the left frame from a joined row `base ++ ext`
where `ext` only carries columns outside the left frame gives the left
row's value. -/
theorem cell_append_map_notmem (base : Row) (cols : List ColName)
    (g : ColName → Cell) (c : ColName) (hc : c ∉ cols) :
    Row.cell (base ++ cols.map (fun c' => (c', g c'))) c = Row.cell base c := by
  unfold Row.cell
  rw [List.find?_append, find?_map_pair, if_neg hc]
  cases base.find? (fun p => p.1 == c) <;> rfl

theorem cell_append_map_mem (base : Row) (cols : List ColName)
    (g : ColName → Cell) (c : ColName)
    (hbase : base.find? (fun p => p.1 == c) = none) (hc : c ∈ cols) :
    Row.cell (base ++ cols.map (fun c' => (c', g c'))) c = g c := by
  unfold Row.cell
  rw [List.find?_append, hbase, find?_map_pair, if_pos hc]
  rfl

theorem cell_append_of_find?_none (a b : Row) (c : ColName)
    (h : a.find? (fun p => p.1 == c) = none) :
    Row.cell (a ++ b) c = Row.cell b c := by
  unfold Row.cell
  rw [List.find?_append, h]
  rfl

theorem cell_append_of_find?_some (a b : Row) (c : ColName) (p : ColName × Cell)
    (h : a.find? (fun p => p.1 == c) = some p) :
    Row.cell (a ++ b) c = p.2 := by
  unfold Row.cell
  rw [List.find?_append, h]
  rfl

theorem cell_map_pair (cols : List ColName) (g : ColName → Cell) (c : ColName) :
    Row.cell (cols.map (fun c' => (c', g c'))) c = if c ∈ cols then g c else none := by
  unfold Row.cell
  rw [find?_map_pair]
  by_cases hc : c ∈ cols <;> simp [hc]

theorem outerMerge_left_survival (ks : List ColName) (l r : DF) (lr : Row)
    (hlr : lr ∈ l.rows) :
    ∃ row ∈ (outerMerge ks l r).rows, ∀ c ∈ l.cols, Row.cell row c = Row.cell lr c := by
  have hdisj : ∀ c ∈ l.cols, c ∉ r.cols.filter (fun c => !(l.cols.contains c)) := by
    intro c hc m
    have hm := (List.mem_filter.mp m).2
    simp only [Bool.not_eq_true'] at hm
    exact absurd hc (by simpa using hm)
  by_cases hms : (r.rows.filter (fun rr => matchesOn ks lr rr)).isEmpty
  · refine ⟨lr ++ (r.cols.filter (fun c => !(l.cols.contains c))).map
        (fun c => (c, (none : Cell))), ?_, ?_⟩
    · show _ ∈ _ ++ _
      refine List.mem_append.mpr (Or.inl (List.mem_flatMap.mpr ⟨lr, hlr, ?_⟩))
      rw [if_pos hms]
      exact List.mem_singleton.mpr rfl
    · intro c hc
      exact cell_append_map_notmem lr _ _ c (hdisj c hc)
  · obtain ⟨rr0, hrr0⟩ : ∃ rr0, rr0 ∈ r.rows.filter (fun rr => matchesOn ks lr rr) := by
      refine List.exists_mem_of_ne_nil _ ?_
      simpa [List.isEmpty_iff] using hms
    refine ⟨lr ++ (r.cols.filter (fun c => !(l.cols.contains c))).map
        (fun c => (c, Row.cell rr0 c)), ?_, ?_⟩
    · show _ ∈ _ ++ _
      refine List.mem_append.mpr (Or.inl (List.mem_flatMap.mpr ⟨lr, hlr, ?_⟩))
      rw [if_neg (by simpa using hms)]
      exact List.mem_map.mpr ⟨rr0, hrr0, rfl⟩
    · intro c hc
      exact cell_append_map_notmem lr _ _ c (hdisj c hc)

theorem outerMerge_right_survival (ks : List ColName) (l r : DF)
    (hks : ∀ k ∈ ks, k ∈ l.cols) (rr : Row) (hrr : rr ∈ r.rows)
    (hnom : ∀ lr ∈ l.rows, matchesOn ks lr rr = false) :
    ∃ row ∈ (outerMerge ks l r).rows,
      (∀ c ∈ ks, Row.cell row c = Row.cell rr c) ∧
      (∀ c, c ∈ r.cols → c ∉ l.cols → Row.cell row c = Row.cell rr c) := by
  refine ⟨l.cols.map (fun c => (c, if ks.contains c then Row.cell rr c else none))
      ++ (r.cols.filter (fun c => !(l.cols.contains c))).map (fun c => (c, Row.cell rr c)),
    ?_, ?_, ?_⟩
  · show _ ∈ _ ++ _
    refine List.mem_append.mpr (Or.inr (List.mem_map.mpr ⟨rr, ?_, rfl⟩))
    refine List.mem_filter.mpr ⟨hrr, ?_⟩
    refine List.all_eq_true.mpr ?_
    intro lr hlr
    simp [hnom lr hlr]
  · intro c hc
    have hcl : c ∈ l.cols := hks c hc
    have hcont : ks.contains c = true := by simpa using hc
    rw [cell_append_of_find?_some _ _ c (c, if ks.contains c then Row.cell rr c else none)
      (by rw [find?_map_pair, if_pos hcl])]
    show (if ks.contains c = true then Row.cell rr c else none) = Row.cell rr c
    rw [if_pos hcont]
  · intro c hcr hcl
    rw [cell_append_of_find?_none _ _ c (by rw [find?_map_pair, if_neg hcl]),
      cell_map_pair, if_pos (List.mem_filter.mpr ⟨hcr, by simpa using hcl⟩)]

/-- C3.  In the level-by-level condense loop, a level with rows (after the
minimum level) is combined with the running condensed table by
`pd.merge(..., how="outer")` on the first `level` integer key columns (the
ancestor-chain prefix): the step literally is that outer merge, every row
of the running condensed table survives with all its column values (in
particular ancestors without descendants at this level), and every
this-level row without a matching already-seen ancestor survives with its
key-prefix values and all its own columns. -/
theorem condense_outer_merge_survival (df acc : DF) (level : Nat)
    (hsub : (levelSub df level).rows ≠ [])
    (hks : ∀ k ∈ keyCols level, k ∈ acc.cols) :
    condenseLevel df acc level = outerMerge (keyCols level) acc (levelSub df level) ∧
    (∀ ar ∈ acc.rows, ∃ row ∈ (condenseLevel df acc level).rows,
        ∀ c ∈ acc.cols, Row.cell row c = Row.cell ar c) ∧
    (∀ sr ∈ (levelSub df level).rows,
        (∀ ar ∈ acc.rows, matchesOn (keyCols level) ar sr = false) →
        ∃ row ∈ (condenseLevel df acc level).rows,
          (∀ c ∈ keyCols level, Row.cell row c = Row.cell sr c) ∧
          (∀ c, c ∈ (levelSub df level).cols → c ∉ acc.cols →
            Row.cell row c = Row.cell sr c)) := by
  have heq : condenseLevel df acc level = outerMerge (keyCols level) acc (levelSub df level) := by
    unfold condenseLevel
    rw [if_neg (by simpa [List.isEmpty_iff] using hsub)]
  refine ⟨heq, ?_, ?_⟩
  · intro ar har
    rw [heq]
    exact outerMerge_left_survival (keyCols level) acc (levelSub df level) ar har
  · intro sr hsr hnom
    rw [heq]
    exact outerMerge_right_survival (keyCols level) acc (levelSub df level) hks sr hsr hnom

/-- A small running condensed table (the processed level-0 sub-table of
the C4 scenario restricted to its key column and name). -/
def accW : DF :=
  { cols := [ColName.idx 0, ColName.str "Name [0]"]
    rows := [[(ColName.idx 0, some (Val.str "R1")), (ColName.str "Name [0]", some (Val.str "R1"))],
             [(ColName.idx 0, some (Val.str "RX")), (ColName.str "Name [0]", some (Val.str "RX"))]] }

/-- Witness for C3 at the concrete C4 hierarchy and level 1: the ancestor
row `RX` (which has no level-1 descendants) survives the merge with its
name intact. -/
theorem condense_outer_merge_survival_witness :
    (levelSub scenarioH 1).rows ≠ [] ∧
    (∃ row ∈ (condenseLevel scenarioH accW 1).rows,
        ∀ c ∈ accW.cols, Row.cell row c
          = Row.cell [(ColName.idx 0, some (Val.str "RX")), (ColName.str "Name [0]", some (Val.str "RX"))] c) := by
  refine ⟨by decide, ?_⟩
  exact (condense_outer_merge_survival scenarioH accW 1 (by decide) (by decide)).2.1
    [(ColName.idx 0, some (Val.str "RX")), (ColName.str "Name [0]", some (Val.str "RX"))]
    (by decide)

/-! ## The Endtime column family produced by condense (C5) -/

theorem endtimeProj_levelSub (df : DF) (level : Nat) (hcols : df.cols = baseCols) :
    endtimeProj (levelSub df level).cols
      = if levelKeep df level (ColName.str "Endtime") = true
        then [renameCol level (ColName.str "Endtime")] else [] := by
  show ((((df.cols.filter (levelKeep df level)
      ++ (List.range (level + 1)).map ColName.idx).filter notPathCol).map
        (renameCol level)).filter isEndCol) = _
  rw [hcols, List.filter_append, List.map_append, List.filter_append]
  have hK : ((((List.range (level + 1)).map ColName.idx).filter notPathCol).map
      (renameCol level)).filter isEndCol = [] := by
    rw [List.filter_eq_nil_iff]
    intro c hc
    obtain ⟨c', hc', rfl⟩ := List.mem_map.mp hc
    obtain ⟨i, _, rfl⟩ := List.mem_map.mp (List.mem_of_mem_filter hc')
    simp [renameCol, isEndCol]
  rw [hK, List.append_nil, List.filter_map, List.filter_filter, List.filter_filter]
  have hEv : (((isEndCol ∘ renameCol level) (ColName.str "Event") && notPathCol (ColName.str "Event"))
      && levelKeep df level (ColName.str "Event")) = false := rfl
  have hPa : (((isEndCol ∘ renameCol level) (ColName.str "Path") && notPathCol (ColName.str "Path"))
      && levelKeep df level (ColName.str "Path")) = false := rfl
  have hNa : (((isEndCol ∘ renameCol level) (ColName.str "Name") && notPathCol (ColName.str "Name"))
      && levelKeep df level (ColName.str "Name")) = false := rfl
  have hTe : (((isEndCol ∘ renameCol level) (ColName.str "Template") && notPathCol (ColName.str "Template"))
      && levelKeep df level (ColName.str "Template")) = false := rfl
  have hLe : (((isEndCol ∘ renameCol level) (ColName.str "Level") && notPathCol (ColName.str "Level"))
      && levelKeep df level (ColName.str "Level")) = false := rfl
  have hSt : (((isEndCol ∘ renameCol level) (ColName.str "Starttime") && notPathCol (ColName.str "Starttime"))
      && levelKeep df level (ColName.str "Starttime")) = false := rfl
  have hEn : (((isEndCol ∘ renameCol level) (ColName.str "Endtime") && notPathCol (ColName.str "Endtime"))
      && levelKeep df level (ColName.str "Endtime")) = levelKeep df level (ColName.str "Endtime") := rfl
  show List.map (renameCol level) (List.filter _ [ColName.str "Event", ColName.str "Path",
    ColName.str "Name", ColName.str "Template", ColName.str "Level", ColName.str "Starttime",
    ColName.str "Endtime"]) = _
  rw [List.filter_cons, if_neg (by rw [hEv]; simp),
    List.filter_cons, if_neg (by rw [hPa]; simp),
    List.filter_cons, if_neg (by rw [hNa]; simp),
    List.filter_cons, if_neg (by rw [hTe]; simp),
    List.filter_cons, if_neg (by rw [hLe]; simp),
    List.filter_cons, if_neg (by rw [hSt]; simp),
    List.filter_cons, hEn, List.filter_nil]
  rw [apply_ite (List.map (renameCol level))]
  rfl

theorem endtimeProj_filter_nil (X : List ColName) (q : ColName → Bool)
    (h : endtimeProj X = []) : endtimeProj (X.filter q) = [] := by
  unfold endtimeProj at h ⊢
  rw [List.filter_eq_nil_iff] at h ⊢
  intro c hc
  exact h c (List.mem_of_mem_filter hc)

theorem endtimeProj_condenseLevel (df acc : DF) (level : Nat)
    (hsub : endtimeProj (levelSub df level).cols = []) :
    endtimeProj (condenseLevel df acc level).cols = endtimeProj acc.cols := by
  unfold condenseLevel
  by_cases he : (levelSub df level).rows.isEmpty
  · rw [if_pos he]
    show endtimeProj (acc.cols ++ [ColName.idx level]) = _
    unfold endtimeProj
    rw [List.filter_append]
    simp [isEndCol]
  · rw [if_neg he]
    show endtimeProj (acc.cols
      ++ (levelSub df level).cols.filter (fun c => !(acc.cols.contains c))) = _
    unfold endtimeProj
    rw [List.filter_append]
    have := endtimeProj_filter_nil (levelSub df level).cols
      (fun c => !(acc.cols.contains c)) hsub
    unfold endtimeProj at this
    rw [this, List.append_nil]

theorem endtimeProj_dropIntCols (d : DF) :
    endtimeProj (dropIntCols d).cols = endtimeProj d.cols := by
  show endtimeProj (d.cols.filter _) = _
  unfold endtimeProj
  rw [List.filter_filter]
  refine List.filter_congr ?_
  intro c _
  cases c <;> simp [isEndCol]

/-- C5 amended.  For every 3-level hierarchy (base schema, levels 0..2 all
present) in which every root has an explicit end time and every level-1
and level-2 node has a missing end time, condensing does not produce three
`Endtime [*]` columns at all: the all-missing `Endtime` columns of levels
1 and 2 are dropped by the per-level `dropna(how="all", axis=1)` before
the merge, so the condensed output's Endtime family is exactly
`["Endtime [0]"]` and the claimed cross-level value comparison has no
columns to compare. -/
theorem condense_root_only_end_endtime_family (df : DF)
    (hcols : df.cols = baseCols)
    (hlv : ∀ r ∈ df.rows, ∃ l, l ≤ 2 ∧ Row.cell r (.str "Level") = some (.nat l))
    (h0some : ∀ r ∈ df.rows, levelIs 0 r → (Row.cell r (.str "Endtime")).isSome)
    (h1none : ∀ r ∈ df.rows, levelIs 1 r → Row.cell r (.str "Endtime") = none)
    (h2none : ∀ r ∈ df.rows, levelIs 2 r → Row.cell r (.str "Endtime") = none)
    (hne0 : ∃ r ∈ df.rows, levelIs 0 r)
    (_hne1 : ∃ r ∈ df.rows, levelIs 1 r)
    (hne2 : ∃ r ∈ df.rows, levelIs 2 r) :
    ∀ out, condense df = some out → endtimeProj out.cols = [ColName.str "Endtime [0]"] := by
  have hmem : ∀ (n : Nat), (∃ r ∈ df.rows, levelIs n r) → n ∈ levelList df := by
    intro n ⟨r, hr, hlev⟩
    refine List.mem_filterMap.mpr ⟨r, hr, ?_⟩
    have hcell : Row.cell r (.str "Level") = some (.nat n) := by
      simpa [levelIs] using hlev
    rw [hcell]
  have hbound : ∀ n ∈ levelList df, n ≤ 2 := by
    intro n hn
    obtain ⟨r, hr, hf⟩ := List.mem_filterMap.mp hn
    obtain ⟨l, hl2, hcell⟩ := hlv r hr
    rw [hcell] at hf
    have : l = n := by simpa using hf
    omega
  have hmin : (levelList df).min? = some 0 := by
    rw [List.min?_eq_some_iff (fun _ => le_refl _) (fun _ _ => min_choice _ _)
      (fun _ _ _ => le_min_iff)]
    exact ⟨hmem 0 hne0, fun b _ => Nat.zero_le b⟩
  have hmax : (levelList df).max? = some 2 := by
    rw [List.max?_eq_some_iff (fun _ => le_refl _) (fun _ _ => max_choice _ _)
      (fun _ _ _ => max_le_iff)]
    exact ⟨hmem 2 hne2, hbound⟩
  intro out hout
  unfold condense condenseCore at hout
  rw [hmin, hmax] at hout
  have hform : out = fillEndtimes (dedupe (dropIntCols
      ((List.range' 1 2).foldl (condenseLevel df) (levelSub df 0)))) := by
    simpa using hout.symm
  subst hform
  have hkeep0 : levelKeep df 0 (ColName.str "Endtime") = true := by
    obtain ⟨r, hr, hl⟩ := hne0
    refine List.any_eq_true.mpr ⟨r, List.mem_filter.mpr ⟨hr, hl⟩, h0some r hr hl⟩
  have hkeepn : ∀ (n : Nat), (∀ r ∈ df.rows, levelIs n r → Row.cell r (.str "Endtime") = none) →
      levelKeep df n (ColName.str "Endtime") = false := by
    intro n hnone
    rw [← Bool.not_eq_true]
    intro hcon
    obtain ⟨r, hr, hsome⟩ := List.any_eq_true.mp hcon
    have hmemf := List.mem_filter.mp hr
    rw [hnone r hmemf.1 hmemf.2] at hsome
    exact absurd hsome (by simp)
  have hs0 : endtimeProj (levelSub df 0).cols = [renameCol 0 (ColName.str "Endtime")] := by
    rw [endtimeProj_levelSub df 0 hcols, if_pos hkeep0]
  have hs1 : endtimeProj (levelSub df 1).cols = [] := by
    rw [endtimeProj_levelSub df 1 hcols,
      if_neg (by rw [hkeepn 1 (h1none)]; simp)]
  have hs2 : endtimeProj (levelSub df 2).cols = [] := by
    rw [endtimeProj_levelSub df 2 hcols,
      if_neg (by rw [hkeepn 2 (h2none)]; simp)]
  have hfold : (List.range' 1 2).foldl (condenseLevel df) (levelSub df 0)
      = condenseLevel df (condenseLevel df (levelSub df 0) 1) 2 := rfl
  show endtimeProj (dedupe (dropIntCols _)).cols = _
  have hdedupe : ∀ d : DF, (dedupe d).cols = d.cols := fun _ => rfl
  rw [hdedupe, endtimeProj_dropIntCols, hfold,
    endtimeProj_condenseLevel df _ 2 hs2, endtimeProj_condenseLevel df _ 1 hs1, hs0]
  rfl

/-- Witness for C5 amended: the concrete 3-row root-only-endtime hierarchy
condenses to a frame whose Endtime family is exactly `["Endtime [0]"]`. -/
theorem condense_root_only_end_endtime_family_witness :
    scenarioRootOnlyEnd.cols = baseCols ∧
    ∃ out, condense scenarioRootOnlyEnd = some out
      ∧ endtimeProj out.cols = [ColName.str "Endtime [0]"] := by
  refine ⟨rfl, ?_⟩
  cases hc : condense scenarioRootOnlyEnd with
  | none => exact absurd hc (by decide)
  | some out =>
      refine ⟨out, rfl, ?_⟩
      refine condense_root_only_end_endtime_family scenarioRootOnlyEnd rfl ?_ ?_ ?_ ?_ ?_ ?_ ?_ out hc
      · intro r hr
        fin_cases hr
        · exact ⟨0, by omega, by decide⟩
        · exact ⟨1, by omega, by decide⟩
        · exact ⟨2, by omega, by decide⟩
      · intro r hr
        fin_cases hr <;> decide
      · intro r hr
        fin_cases hr <;> decide
      · intro r hr
        fin_cases hr <;> decide
      · exact ⟨hrow 1 "\\\\SRV\\DB\\R1" "R1" (some "Proc") 0 (some 0) (some 100),
          by decide, by decide⟩
      · exact ⟨hrow 3 "\\\\SRV\\DB\\R1\\C1" "C1" (some "Op") 1 (some 0) none,
          by decide, by decide⟩
      · exact ⟨hrow 5 "\\\\SRV\\DB\\R1\\C1\\G11" "G11" (some "Ph") 2 (some 0) none,
          by decide, by decide⟩

end PIconnect
